import Mathlib

/-!
Verification of the varint codec in
`crates/proofs/src/base/encode/varint_trait.rs`.

Bytes are modelled as `List Nat` (each element a `u8`, i.e. `< 256`); `u64`
values are `Nat` with explicit `% 2^64` where Rust's fixed width matters, and
`i64` values are `Int` constrained to `[-2^63, 2^63)`.
-/

/-- Most-significant bit of a byte, `MSB = 0x80` in the source. -/
def MSB : Nat := 0x80

/-- All bits of a byte except the most significant, `DROP_MSB = 0x7f`. -/
def DROP_MSB : Nat := 0x7f

/-- Reinterpret an i64 value as its u64 bit pattern (Rust `as u64`). -/
def toU64 (v : Int) : Nat := (v % (2 ^ 64 : Int)).toNat

/-- Reinterpret a u64 bit pattern (`< 2^64`) as an i64 value (Rust `as i64`). -/
def toI64 (n : Nat) : Int := if n < 2 ^ 63 then (n : Int) else (n : Int) - 2 ^ 64

/-- `zigzag_encode(v) = ((v << 1) ^ (v >> 63)) as u64`. On an i64, `v << 1`
doubles modulo `2^64`, `v >> 63` is the arithmetic shift (`-1` for negative
values, `0` otherwise), and the xor is taken on the u64 bit patterns. -/
def zigzag_encode (v : Int) : Nat :=
  toU64 (2 * v) ^^^ toU64 (if v < 0 then -1 else 0)

/-- `zigzag_decode(u) = ((u >> 1) ^ (-((u & 1) as i64)) as u64) as i64`. -/
def zigzag_decode (u : Nat) : Int :=
  toI64 ((u >>> 1) ^^^ toU64 (-((u &&& 1 : Nat) : Int)))

/-- Bit length by repeated halving (structural in the fuel so that it
evaluates; 64 units of fuel cover every u64). -/
def bitLenAux : Nat → Nat → Nat
  | 0, _ => 0
  | fuel + 1, n => if n = 0 then 0 else bitLenAux fuel (n / 2) + 1

/-- `u64::required_space`: `bits = 64 - self.leading_zeros()` is the bit length
of the value (the leading-zero count of a u64 `v` is `64 - bitLenAux 64 v`),
and the byte count is `max(1, (bits + 6) / 7)`. -/
def u64_required_space (v : Nat) : Nat :=
  let bits := bitLenAux 64 v
  max 1 ((bits + 6) / 7)

/-- Loop of `u64::decode_var`, with the accumulator `result` and the bit offset
`shift` as explicit state. Each byte contributes its low 7 bits at the current
shift; a u64 left shift keeps only bits below 64, hence the `% 2^64`. Once
`shift` passes `9 * 7` a 10th byte has been read and it must be `0` or `1`;
before that, a clear continuation bit terminates the scan successfully, and
exhausting the input without a terminator fails. -/
def u64_decode_loop : List Nat → Nat → Nat → Option (Nat × Nat)
  | [], _, _ => none
  | b :: rest, result, shift =>
    let msb_dropped := b &&& DROP_MSB
    let result2 := result ||| ((msb_dropped <<< shift) % 2 ^ 64)
    let shift2 := shift + 7
    if 9 * 7 < shift2 then
      if b < 2 then some (result2, shift2 / 7) else none
    else if b &&& MSB = 0 then
      some (result2, shift2 / 7)
    else
      u64_decode_loop rest result2 shift2

/-- `u64::decode_var src`: run the scan loop from `result = 0`, `shift = 0`. -/
def u64_decode_var (src : List Nat) : Option (Nat × Nat) :=
  u64_decode_loop src 0 0

/-- Checked store `dst[i] = b`: Rust slice indexing panics out of bounds,
modelled by `none`. -/
def setChecked (dst : List Nat) (i : Nat) (b : Nat) : Option (List Nat) :=
  if i < dst.length then some (dst.set i b) else none

/-- Loop of `u64::encode_var`: while `n >= 0x80` store `MSB | (n as u8)` and
shift `n` right by 7, then store the final byte `n as u8`. A u64 drops below
`0x80` after at most nine shifts by 7, so fuel 9 (whose exhausted case is the
final store) agrees with the unbounded source loop on every u64 input. -/
def u64_encode_loop : Nat → Nat → Nat → List Nat → Option (Nat × List Nat)
  | fuel + 1, n, i, dst =>
    if 0x80 ≤ n then
      match setChecked dst i (MSB ||| (n % 256)) with
      | some dst2 => u64_encode_loop fuel (n >>> 7) (i + 1) dst2
      | none => none
    else
      (setChecked dst i (n % 256)).map (fun dst2 => (i + 1, dst2))
  | 0, n, i, dst =>
    (setChecked dst i (n % 256)).map (fun dst2 => (i + 1, dst2))

/-- `u64::encode_var`: `assert!(dst.len() >= self.required_space())`, then the
store loop from index 0. `none` models the failed assertion (or an
out-of-bounds store, which the assertion is meant to preclude). -/
def u64_encode_var (v : Nat) (dst : List Nat) : Option (Nat × List Nat) :=
  if u64_required_space v ≤ dst.length then u64_encode_loop 9 v 0 dst else none

/-- `encode_var_vec` (default method of the `VarInt` trait): encode into a
fresh zeroed vector of `required_space` bytes and return that vector. -/
def u64_encode_var_vec (v : Nat) : List Nat :=
  match u64_encode_var v (List.replicate (u64_required_space v) 0) with
  | some (_, out) => out
  | none => []

/-- `i64::required_space`: zigzag then unsigned required space. -/
def i64_required_space (v : Int) : Nat := u64_required_space (zigzag_encode v)

/-- `i64::decode_var`: unsigned decode, then zigzag-decode the value. -/
def i64_decode_var (src : List Nat) : Option (Int × Nat) :=
  match u64_decode_var src with
  | none => none
  | some (result, size) => some (zigzag_decode result, size)

/-- `i64::encode_var`: zigzag, then unsigned encode. -/
def i64_encode_var (v : Int) (dst : List Nat) : Option (Nat × List Nat) :=
  u64_encode_var (zigzag_encode v) dst

/-- `encode_var_vec` for `i64`. -/
def i64_encode_var_vec (v : Int) : List Nat :=
  match i64_encode_var v (List.replicate (i64_required_space v) 0) with
  | some (_, out) => out
  | none => []

/-- Body of `impl_varint!($t, unsigned)::decode_var`, with `Self::MAX` as a
parameter: delegate to `u64::decode_var`, fail if the value overflows `Self`,
otherwise narrow (`n as Self` is `n % (Self::MAX + 1)`, an identity under the
guard) and return the same byte count. -/
def unsigned_decode_var (selfMax : Nat) (src : List Nat) : Option (Nat × Nat) :=
  match u64_decode_var src with
  | none => none
  | some (n, s) => if selfMax < n then none else some (n % (selfMax + 1), s)

/-- Body of `impl_varint!($t, signed)::decode_var`, with `Self::MIN` and
`Self::MAX` as parameters: delegate to `i64::decode_var` and fail unless the
value lies in `[Self::MIN, Self::MAX]` (`n as Self` is the identity there). -/
def signed_decode_var (selfMin selfMax : Int) (src : List Nat) :
    Option (Int × Nat) :=
  match i64_decode_var src with
  | none => none
  | some (n, s) => if selfMax < n ∨ n < selfMin then none else some (n, s)

/-- `impl_varint!(u8, unsigned)` decode. -/
def u8_decode_var (src : List Nat) : Option (Nat × Nat) :=
  unsigned_decode_var (2 ^ 8 - 1) src

/-- `impl_varint!(u16, unsigned)` decode. -/
def u16_decode_var (src : List Nat) : Option (Nat × Nat) :=
  unsigned_decode_var (2 ^ 16 - 1) src

/-- `impl_varint!(u32, unsigned)` decode. -/
def u32_decode_var (src : List Nat) : Option (Nat × Nat) :=
  unsigned_decode_var (2 ^ 32 - 1) src

/-- `impl_varint!(usize, unsigned)` decode; `usize` is 64-bit on the targets
this crate supports. -/
def usize_decode_var (src : List Nat) : Option (Nat × Nat) :=
  unsigned_decode_var (2 ^ 64 - 1) src

/-- `impl_varint!(i8, signed)` decode. -/
def i8_decode_var (src : List Nat) : Option (Int × Nat) :=
  signed_decode_var (-(2 ^ 7)) (2 ^ 7 - 1) src

/-- `impl_varint!(i16, signed)` decode. -/
def i16_decode_var (src : List Nat) : Option (Int × Nat) :=
  signed_decode_var (-(2 ^ 15)) (2 ^ 15 - 1) src

/-- `impl_varint!(i32, signed)` decode. -/
def i32_decode_var (src : List Nat) : Option (Int × Nat) :=
  signed_decode_var (-(2 ^ 31)) (2 ^ 31 - 1) src

/-- `impl_varint!(isize, signed)` decode; `isize` is 64-bit here. -/
def isize_decode_var (src : List Nat) : Option (Int × Nat) :=
  signed_decode_var (-(2 ^ 63)) (2 ^ 63 - 1) src

/-- Narrow unsigned `required_space`: `(self as u64).required_space()`. The
widening cast is value-preserving, shared by u8, u16, u32 and usize. -/
def unsigned_required_space (v : Nat) : Nat := u64_required_space v

/-- Narrow unsigned `encode_var`: `(self as u64).encode_var(dst)`. -/
def unsigned_encode_var (v : Nat) (dst : List Nat) : Option (Nat × List Nat) :=
  u64_encode_var v dst

/-- Narrow unsigned `encode_var_vec`. -/
def unsigned_encode_var_vec (v : Nat) : List Nat := u64_encode_var_vec v

/-- Narrow signed `required_space`: `(self as i64).required_space()`; the
widening cast is value-preserving, shared by i8, i16, i32 and isize. -/
def signed_required_space (v : Int) : Nat := i64_required_space v

/-- Narrow signed `encode_var`: `(self as i64).encode_var(dst)`. -/
def signed_encode_var (v : Int) (dst : List Nat) : Option (Nat × List Nat) :=
  i64_encode_var v dst

/-- Narrow signed `encode_var_vec`. -/
def signed_encode_var_vec (v : Int) : List Nat := i64_encode_var_vec v

/-- Byte sequence produced by the `u64::encode_var` loop for value `n` (ghost
definition used in proofs; same fuel structure as `u64_encode_loop`). -/
def varintBytesAux : Nat → Nat → List Nat
  | fuel + 1, n =>
    if 0x80 ≤ n then (MSB ||| (n % 256)) :: varintBytesAux fuel (n >>> 7)
    else [n % 256]
  | 0, n => [n % 256]

/-- Canonical varint byte sequence of a u64 value. -/
def varintBytes (n : Nat) : List Nat := varintBytesAux 9 n

/-- Store a list of bytes at consecutive indices, as the encode loop does
(ghost definition used in proofs). -/
def writeAt (dst : List Nat) (i : Nat) : List Nat → List Nat
  | [] => dst
  | b :: bs => writeAt (dst.set i b) (i + 1) bs

theorem size_div_two_succ {n : Nat} (h : n ≠ 0) :
    Nat.size n = Nat.size (n / 2) + 1 := by
  apply le_antisymm
  · rw [Nat.size_le, pow_succ]
    have h2 := Nat.lt_size_self (n / 2)
    omega
  · have h3 : 2 ^ Nat.size (n / 2) ≤ n := by
      rcases Nat.eq_zero_or_pos (n / 2) with h0 | h0
      · rw [h0, Nat.size_zero]
        omega
      · have h1 : 0 < Nat.size (n / 2) := Nat.size_pos.mpr h0
        have h2 : 2 ^ (Nat.size (n / 2) - 1) ≤ n / 2 := Nat.lt_size.mp (by omega)
        have h4 : 2 ^ Nat.size (n / 2) = 2 * 2 ^ (Nat.size (n / 2) - 1) := by
          have h5 : Nat.size (n / 2) = Nat.size (n / 2) - 1 + 1 := by omega
          conv_lhs => rw [h5]
          rw [pow_succ']
        omega
    exact Nat.lt_size.mpr h3

theorem bitLenAux_eq_size (fuel : Nat) :
    ∀ n, n < 2 ^ fuel → bitLenAux fuel n = Nat.size n := by
  induction fuel with
  | zero =>
    intro n h
    have h0 : n = 0 := by omega
    subst h0
    simp [bitLenAux]
  | succ fuel ih =>
    intro n h
    by_cases h0 : n = 0
    · subst h0
      simp [bitLenAux]
    · have hdiv : n / 2 < 2 ^ fuel := by
        have h2 : (2 : Nat) ^ (fuel + 1) = 2 * 2 ^ fuel := by rw [pow_succ']
        omega
      simp only [bitLenAux, h0, if_false]
      rw [ih (n / 2) hdiv, ← size_div_two_succ h0]

theorem u64_required_space_eq {v : Nat} (h : v < 2 ^ 64) :
    u64_required_space v = max 1 ((Nat.size v + 6) / 7) := by
  unfold u64_required_space
  rw [bitLenAux_eq_size 64 v h]

theorem size_shiftRight_seven {n : Nat} (h : 128 ≤ n) :
    Nat.size (n >>> 7) = Nat.size n - 7 := by
  have hsz : 8 ≤ Nat.size n := Nat.lt_size.mpr (by norm_num; omega)
  rw [Nat.shiftRight_eq_div_pow]
  apply le_antisymm
  · rw [Nat.size_le]
    have h1 : n < 2 ^ Nat.size n := Nat.lt_size_self n
    have h2 : (2 : Nat) ^ Nat.size n = 2 ^ (Nat.size n - 7) * 2 ^ 7 := by
      have h6 : Nat.size n = Nat.size n - 7 + 7 := by omega
      rw [h6, pow_add]
      rw [← h6]
    rw [Nat.div_lt_iff_lt_mul (by norm_num : (0 : Nat) < 2 ^ 7)]
    omega
  · have h3 : Nat.size n - 8 < Nat.size (n / 2 ^ 7) := by
      rw [Nat.lt_size, Nat.le_div_iff_mul_le (by norm_num : (0 : Nat) < 2 ^ 7)]
      have h4 : 2 ^ (Nat.size n - 8) * 2 ^ 7 = 2 ^ (Nat.size n - 1) := by
        rw [← pow_add]
        have h6 : Nat.size n - 8 + 7 = Nat.size n - 1 := by omega
        rw [h6]
      have h5 : 2 ^ (Nat.size n - 1) ≤ n := Nat.lt_size.mp (by omega)
      omega
    omega

theorem varintBytesAux_length (fuel : Nat) :
    ∀ n, n < 2 ^ (7 * (fuel + 1)) →
      (varintBytesAux fuel n).length = max 1 ((Nat.size n + 6) / 7) := by
  induction fuel with
  | zero =>
    intro n h
    have hs : Nat.size n ≤ 7 := Nat.size_le.mpr (by omega)
    simp only [varintBytesAux, List.length_cons, List.length_nil]
    omega
  | succ fuel ih =>
    intro n h
    by_cases h0 : 0x80 ≤ n
    · have hs : 8 ≤ Nat.size n := Nat.lt_size.mpr (by norm_num; omega)
      have hdiv : n >>> 7 < 2 ^ (7 * (fuel + 1)) := by
        rw [Nat.shiftRight_eq_div_pow]
        have h2 : (2 : Nat) ^ (7 * (fuel + 1 + 1)) = 2 ^ (7 * (fuel + 1)) * 2 ^ 7 := by
          rw [← pow_add]
          have h6 : 7 * (fuel + 1) + 7 = 7 * (fuel + 1 + 1) := by omega
          rw [h6]
        rw [Nat.div_lt_iff_lt_mul (by norm_num : (0 : Nat) < 2 ^ 7)]
        omega
      simp only [varintBytesAux, h0, if_true, List.length_cons]
      rw [ih (n >>> 7) hdiv, size_shiftRight_seven h0]
      omega
    · have hs : Nat.size n ≤ 7 := Nat.size_le.mpr (by omega)
      simp only [varintBytesAux, h0, if_false, List.length_cons, List.length_nil]
      omega

theorem varintBytes_length {n : Nat} (h : n < 2 ^ 64) :
    (varintBytes n).length = u64_required_space n := by
  rw [u64_required_space_eq h]
  exact varintBytesAux_length 9 n (by omega)

theorem or_add_shiftLeft {a b s : Nat} (ha : a < 2 ^ s) :
    a ||| (b <<< s) = a + b * 2 ^ s := by
  apply Nat.eq_of_testBit_eq
  intro j
  have h1 : a + b * 2 ^ s = 2 ^ s * b + a := by ring
  rw [h1, Nat.testBit_mul_pow_two_add b ha j]
  simp only [Nat.testBit_or, Nat.testBit_shiftLeft]
  by_cases hj : j < s
  · have h2 : ¬ (j ≥ s) := by omega
    simp [hj, h2]
  · have hge : j ≥ s := by omega
    have h3 : a < 2 ^ j :=
      lt_of_lt_of_le ha (Nat.pow_le_pow_right (by norm_num) hge)
    simp [hj, hge, Nat.testBit_lt_two_pow h3]

theorem contByte_and_dropMSB (n : Nat) :
    (MSB ||| (n % 256)) &&& DROP_MSB = n % 128 := by
  apply Nat.eq_of_testBit_eq
  intro i
  have h7 : (DROP_MSB : Nat) = 2 ^ 7 - 1 := by norm_num [DROP_MSB]
  have h8 : (MSB : Nat) = 2 ^ 7 := by norm_num [MSB]
  have h256 : (256 : Nat) = 2 ^ 8 := by norm_num
  have h128 : (128 : Nat) = 2 ^ 7 := by norm_num
  rw [h7, h8, h256, h128]
  simp only [Nat.testBit_and, Nat.testBit_or, Nat.testBit_mod_two_pow,
    Nat.testBit_two_pow_sub_one, Nat.testBit_two_pow]
  by_cases hi : i < 7
  · have h2 : ¬ (7 = i) := by omega
    have hi8 : i < 8 := by omega
    simp [hi, h2, hi8]
  · simp [hi]

theorem contByte_and_msb (n : Nat) : ¬ ((MSB ||| (n % 256)) &&& MSB = 0) := by
  intro h
  have h2 := congrArg (fun x => Nat.testBit x 7) h
  have h8 : (MSB : Nat) = 2 ^ 7 := by norm_num [MSB]
  simp only [h8, Nat.testBit_and, Nat.testBit_or, Nat.testBit_two_pow] at h2
  simp at h2

theorem finByte_and_msb {n : Nat} (h : n < 128) : n &&& MSB = 0 := by
  apply Nat.eq_of_testBit_eq
  intro i
  have h8 : (MSB : Nat) = 2 ^ 7 := by norm_num [MSB]
  simp only [h8, Nat.testBit_and, Nat.testBit_two_pow, Nat.zero_testBit]
  by_cases hi : 7 = i
  · subst hi
    have h3 : n < 2 ^ 7 := by norm_num; omega
    simp [Nat.testBit_lt_two_pow h3]
  · simp [hi]

theorem finByte_and_dropMSB {n : Nat} (h : n < 128) : n &&& DROP_MSB = n := by
  have h7 : (DROP_MSB : Nat) = 2 ^ 7 - 1 := by norm_num [DROP_MSB]
  rw [h7]
  exact Nat.and_pow_two_sub_one_of_lt_two_pow (by norm_num; omega)

theorem u64_decode_loop_last {n k result : Nat} (tail : List Nat) (hk : k ≤ 9)
    (hn : n < 2 ^ (64 - 7 * k)) (hn7 : n < 128) (hres : result < 2 ^ (7 * k)) :
    u64_decode_loop (n :: tail) result (7 * k) =
      some (result + n * 2 ^ (7 * k), k + 1) := by
  have hmod : (n <<< (7 * k)) % 2 ^ 64 = n <<< (7 * k) := by
    apply Nat.mod_eq_of_lt
    rw [Nat.shiftLeft_eq]
    have h1 : 64 - 7 * k + 7 * k = 64 := by omega
    calc n * 2 ^ (7 * k) < 2 ^ (64 - 7 * k) * 2 ^ (7 * k) := by
          apply Nat.mul_lt_mul_right (Nat.two_pow_pos _) |>.mpr hn
      _ = 2 ^ 64 := by rw [← pow_add, h1]
  simp only [u64_decode_loop, finByte_and_dropMSB hn7, hmod,
    or_add_shiftLeft hres]
  by_cases hcase : 9 * 7 < 7 * k + 7
  · have hk9 : k = 9 := by omega
    subst hk9
    have hn2 : n < 2 := by norm_num at hn; omega
    rw [if_pos hcase, if_pos hn2]
  · rw [if_neg hcase, if_pos (finByte_and_msb hn7)]
    have h2 : (7 * k + 7) / 7 = k + 1 := by omega
    rw [h2]

theorem u64_decode_loop_varintBytes (fuel : Nat) :
    ∀ k n result tail, k + fuel ≤ 9 → n < 2 ^ (64 - 7 * k) →
      n < 2 ^ (7 * (fuel + 1)) → result < 2 ^ (7 * k) →
      u64_decode_loop (varintBytesAux fuel n ++ tail) result (7 * k) =
        some (result + n * 2 ^ (7 * k), k + (varintBytesAux fuel n).length) := by
  induction fuel with
  | zero =>
    intro k n result tail hfuel hn hn7 hres
    have hn128 : n < 128 := by norm_num at hn7; omega
    have hmod : n % 256 = n := Nat.mod_eq_of_lt (by omega)
    simp only [varintBytesAux, hmod, List.cons_append, List.nil_append,
      List.length_cons, List.length_nil]
    exact u64_decode_loop_last tail (by omega) hn hn128 hres
  | succ fuel ih =>
    intro k n result tail hfuel hn hn7 hres
    by_cases h0 : 0x80 ≤ n
    · have hk8 : k ≤ 8 := by
        by_contra hc
        have hk9 : k = 9 := by omega
        subst hk9
        norm_num at hn
        omega
      have hle : (n % 128) * 2 ^ (7 * k) < 2 ^ 64 := by
        have h1 : n % 128 < 2 ^ 7 := by norm_num; omega
        have h2 : (2 : Nat) ^ 7 * 2 ^ (7 * k) = 2 ^ (7 + 7 * k) := by
          rw [← pow_add]
        have h3 : (2 : Nat) ^ (7 + 7 * k) ≤ 2 ^ 64 := by
          apply Nat.pow_le_pow_right (by norm_num)
          omega
        calc (n % 128) * 2 ^ (7 * k) < 2 ^ 7 * 2 ^ (7 * k) :=
              (Nat.mul_lt_mul_right (Nat.two_pow_pos _)).mpr h1
          _ = 2 ^ (7 + 7 * k) := h2
          _ ≤ 2 ^ 64 := h3
      have hmod : ((n % 128) <<< (7 * k)) % 2 ^ 64 = (n % 128) <<< (7 * k) := by
        apply Nat.mod_eq_of_lt
        rw [Nat.shiftLeft_eq]
        exact hle
      simp only [varintBytesAux, h0, if_true, List.cons_append,
        List.length_cons]
      simp only [u64_decode_loop, contByte_and_dropMSB, hmod,
        or_add_shiftLeft hres]
      rw [if_neg (by omega : ¬ (9 * 7 < 7 * k + 7)),
        if_neg (contByte_and_msb n)]
      have hstep : 7 * k + 7 = 7 * (k + 1) := by omega
      rw [hstep]
      have hdiv : n >>> 7 < 2 ^ (64 - 7 * (k + 1)) := by
        rw [Nat.shiftRight_eq_div_pow,
          Nat.div_lt_iff_lt_mul (by norm_num : (0 : Nat) < 2 ^ 7)]
        have h2 : (2 : Nat) ^ (64 - 7 * (k + 1)) * 2 ^ 7 = 2 ^ (64 - 7 * k) := by
          rw [← pow_add]
          have h9 : 64 - 7 * (k + 1) + 7 = 64 - 7 * k := by omega
          rw [h9]
        omega
      have hdiv7 : n >>> 7 < 2 ^ (7 * (fuel + 1)) := by
        rw [Nat.shiftRight_eq_div_pow,
          Nat.div_lt_iff_lt_mul (by norm_num : (0 : Nat) < 2 ^ 7)]
        have h2 : (2 : Nat) ^ (7 * (fuel + 1)) * 2 ^ 7 = 2 ^ (7 * (fuel + 1 + 1)) := by
          rw [← pow_add]
          have h9 : 7 * (fuel + 1) + 7 = 7 * (fuel + 1 + 1) := by omega
          rw [h9]
        omega
      have hres2 : result + (n % 128) * 2 ^ (7 * k) < 2 ^ (7 * (k + 1)) := by
        have h1 : n % 128 ≤ 127 := by omega
        have h2 : (n % 128) * 2 ^ (7 * k) ≤ 127 * 2 ^ (7 * k) :=
          Nat.mul_le_mul_right _ h1
        have h3 : (2 : Nat) ^ (7 * (k + 1)) = 128 * 2 ^ (7 * k) := by
          have h4 : 7 * (k + 1) = 7 + 7 * k := by omega
          rw [h4, pow_add]
          norm_num
        omega
      rw [ih (k + 1) (n >>> 7) (result + (n % 128) * 2 ^ (7 * k)) tail
        (by omega) hdiv hdiv7 hres2]
      have hval : result + (n % 128) * 2 ^ (7 * k) + n >>> 7 * 2 ^ (7 * (k + 1))
          = result + n * 2 ^ (7 * k) := by
        have h5 : n % 128 + 128 * (n >>> 7) = n := by
          rw [Nat.shiftRight_eq_div_pow]
          norm_num [Nat.mod_add_div]
        have h6 : (2 : Nat) ^ (7 * (k + 1)) = 2 ^ (7 * k) * 128 := by
          have h4 : 7 * (k + 1) = 7 * k + 7 := by omega
          rw [h4, pow_add]
          norm_num
        calc result + (n % 128) * 2 ^ (7 * k) + n >>> 7 * 2 ^ (7 * (k + 1))
            = result + (n % 128 + 128 * (n >>> 7)) * 2 ^ (7 * k) := by
              rw [h6]
              ring
          _ = result + n * 2 ^ (7 * k) := by rw [h5]
      have hcnt : k + 1 + (varintBytesAux fuel (n >>> 7)).length
          = k + ((varintBytesAux fuel (n >>> 7)).length + 1) := by omega
      rw [hval, hcnt]
    · have hn128 : n < 128 := by omega
      have hmod : n % 256 = n := Nat.mod_eq_of_lt (by omega)
      simp only [varintBytesAux, h0, if_false, hmod, List.cons_append,
        List.nil_append, List.length_cons, List.length_nil]
      exact u64_decode_loop_last tail (by omega) hn hn128 hres

theorem u64_decode_var_varintBytes {v : Nat} (h : v < 2 ^ 64) (tail : List Nat) :
    u64_decode_var (varintBytes v ++ tail) = some (v, u64_required_space v) := by
  have h2 := u64_decode_loop_varintBytes 9 0 v 0 tail (by omega)
    (by norm_num; omega) (by norm_num; omega) (by norm_num)
  simp only [Nat.mul_zero, pow_zero, Nat.mul_one, Nat.zero_add] at h2
  have h3 : (varintBytesAux 9 v).length = u64_required_space v :=
    varintBytes_length h
  rw [u64_decode_var, varintBytes, h2, h3]

theorem writeAt_cons (bs : List Nat) :
    ∀ (d : Nat) (ds : List Nat) (i : Nat),
      writeAt (d :: ds) (i + 1) bs = d :: writeAt ds i bs := by
  induction bs with
  | nil => intro d ds i; rfl
  | cons b bs ih =>
    intro d ds i
    simp only [writeAt, List.set_cons_succ]
    exact ih d (ds.set i b) (i + 1)

theorem writeAt_eq : ∀ dst : List Nat, ∀ i bs, i + bs.length ≤ dst.length →
    writeAt dst i bs = dst.take i ++ bs ++ dst.drop (i + bs.length) := by
  intro dst
  induction dst with
  | nil =>
    intro i bs h
    simp only [List.length_nil] at h
    have hi : i = 0 := by omega
    have hbs : bs = [] := List.length_eq_zero.mp (by omega)
    subst hi
    subst hbs
    rfl
  | cons d ds ih =>
    intro i bs h
    cases i with
    | zero =>
      cases bs with
      | nil => simp [writeAt]
      | cons b bs =>
        have h2 : writeAt (d :: ds) 0 (b :: bs) = writeAt (b :: ds) 1 bs := by
          simp only [writeAt, List.set_cons_zero]
        have h3 : bs.length ≤ ds.length := by
          simp only [List.length_cons] at h
          omega
        rw [h2, writeAt_cons bs b ds 0, ih 0 bs (by omega)]
        simp
    | succ i =>
      have h3 : i + bs.length ≤ ds.length := by
        simp only [List.length_cons] at h
        omega
      rw [writeAt_cons bs d ds i, ih i bs h3]
      have h4 : i + 1 + bs.length = (i + bs.length) + 1 := by omega
      rw [h4]
      simp only [List.take_succ_cons, List.drop_succ_cons, List.cons_append]

theorem u64_encode_loop_eq (fuel : Nat) :
    ∀ n i dst, i + (varintBytesAux fuel n).length ≤ dst.length →
      u64_encode_loop fuel n i dst =
        some (i + (varintBytesAux fuel n).length,
          writeAt dst i (varintBytesAux fuel n)) := by
  induction fuel with
  | zero =>
    intro n i dst h
    simp only [varintBytesAux, List.length_cons, List.length_nil] at h ⊢
    have hi : i < dst.length := by omega
    simp only [u64_encode_loop, setChecked, if_pos hi, Option.map_some]
    rfl
  | succ fuel ih =>
    intro n i dst h
    by_cases h0 : 0x80 ≤ n
    · simp only [varintBytesAux, h0, if_true, List.length_cons] at h ⊢
      have hi : i < dst.length := by omega
      simp only [u64_encode_loop, h0, if_true, setChecked, if_pos hi]
      have h2 : i + 1 + (varintBytesAux fuel (n >>> 7)).length ≤
          (dst.set i (MSB ||| n % 256)).length := by
        simp only [List.length_set]
        omega
      rw [ih (n >>> 7) (i + 1) (dst.set i (MSB ||| n % 256)) h2]
      have h5 : i + 1 + (varintBytesAux fuel (n >>> 7)).length =
          i + ((varintBytesAux fuel (n >>> 7)).length + 1) := by omega
      rw [h5]
      rfl
    · simp only [varintBytesAux, h0, if_false, List.length_cons,
        List.length_nil] at h ⊢
      have hi : i < dst.length := by omega
      simp only [u64_encode_loop, h0, if_false, setChecked, if_pos hi,
        Option.map_some]
      rfl

theorem u64_encode_var_eq {v : Nat} (dst : List Nat) (h : v < 2 ^ 64)
    (hlen : u64_required_space v ≤ dst.length) :
    u64_encode_var v dst =
      some (u64_required_space v,
        varintBytes v ++ dst.drop (u64_required_space v)) := by
  have hl : (varintBytes v).length = u64_required_space v := varintBytes_length h
  rw [u64_encode_var, if_pos hlen]
  have h2 := u64_encode_loop_eq 9 v 0 dst (by rw [varintBytes] at hl; omega)
  rw [show u64_encode_loop 9 v 0 dst = u64_encode_loop 9 v 0 dst from rfl, h2,
    writeAt_eq dst 0 (varintBytesAux 9 v) (by rw [varintBytes] at hl; omega)]
  rw [varintBytes] at hl
  simp only [List.take_zero, List.nil_append, Nat.zero_add, hl, varintBytes]

theorem u64_encode_var_vec_eq {v : Nat} (h : v < 2 ^ 64) :
    u64_encode_var_vec v = varintBytes v := by
  rw [u64_encode_var_vec,
    u64_encode_var_eq (List.replicate (u64_required_space v) 0) h (by simp)]
  have h2 : (List.replicate (u64_required_space v) 0).drop
      (u64_required_space v) = ([] : List Nat) := by
    apply List.drop_eq_nil_of_le
    simp
  rw [h2, List.append_nil]

theorem u64_round_trip {v : Nat} (h : v < 2 ^ 64) :
    u64_decode_var (u64_encode_var_vec v) = some (v, u64_required_space v) := by
  have h2 := u64_decode_var_varintBytes h []
  rw [List.append_nil] at h2
  rw [u64_encode_var_vec_eq h, h2]

theorem xor_two_pow_sub_one {x : Nat} (n : Nat) (h : x < 2 ^ n) :
    x ^^^ (2 ^ n - 1) = 2 ^ n - 1 - x := by
  apply Nat.eq_of_testBit_eq
  intro i
  have h1 : 2 ^ n - 1 - x = 2 ^ n - (x + 1) := by omega
  rw [h1, Nat.testBit_two_pow_sub_succ h]
  simp only [Nat.testBit_xor, Nat.testBit_two_pow_sub_one]
  by_cases hi : i < n
  · simp [hi]
  · have h2 : x < 2 ^ i :=
      lt_of_lt_of_le h (Nat.pow_le_pow_right (by norm_num) (by omega))
    simp [hi, Nat.testBit_lt_two_pow h2]

theorem int_pow_facts :
    ((2 : Int) ^ 64 = 2 * 2 ^ 63) ∧ ((2 : Int) ^ 63 = 2 ^ 63) ∧
      (((2 : Int) ^ 64).toNat = 2 ^ 64) ∧ (((2 : Int) ^ 63).toNat = 2 ^ 63) := by
  refine ⟨by norm_num, rfl, ?_, ?_⟩
  · norm_num
    rfl
  · norm_num
    rfl

theorem zigzag_encode_nonneg {v : Int} (h0 : 0 ≤ v) (h1 : v < 2 ^ 63) :
    zigzag_encode v = (2 * v).toNat := by
  rw [zigzag_encode, if_neg (by omega : ¬ (v < 0))]
  have h64 : (2 : Int) ^ 64 = 2 * 2 ^ 63 := by norm_num
  have h2 : (2 * v) % (2 ^ 64 : Int) = 2 * v :=
    Int.emod_eq_of_lt (by omega) (by omega)
  have h3 : toU64 (2 * v) = (2 * v).toNat := by rw [toU64, h2]
  have h4 : toU64 0 = 0 := rfl
  rw [h3, h4, Nat.xor_zero]

theorem zigzag_encode_neg {v : Int} (h0 : v < 0) (h1 : -(2 ^ 63) ≤ v) :
    zigzag_encode v = (-2 * v - 1).toNat := by
  rw [zigzag_encode, if_pos h0]
  have h64 : (2 : Int) ^ 64 = 2 * 2 ^ 63 := by norm_num
  have h2 : (2 * v) % (2 ^ 64 : Int) = 2 * v + 2 ^ 64 := by
    have h5 : (2 * v) % (2 ^ 64 : Int) = (2 * v + 2 ^ 64) % (2 ^ 64 : Int) := by
      omega
    rw [h5, Int.emod_eq_of_lt (by omega) (by omega)]
  have h3 : toU64 (2 * v) = (2 * v + 2 ^ 64).toNat := by rw [toU64, h2]
  have h6 : toU64 (-1) = 2 ^ 64 - 1 := by
    rw [toU64]
    norm_num
    rfl
  rw [h3, h6]
  have h7 : (2 * v + 2 ^ 64).toNat < 2 ^ 64 := by
    have h8 := int_pow_facts.2.2.1
    omega
  rw [xor_two_pow_sub_one 64 h7]
  have h8 := int_pow_facts.2.2.1
  omega

theorem zigzag_encode_lt {v : Int} (h0 : -(2 ^ 63) ≤ v) (h1 : v < 2 ^ 63) :
    zigzag_encode v < 2 ^ 64 := by
  have h64 : (2 : Int) ^ 64 = 2 * 2 ^ 63 := by norm_num
  have h8 := int_pow_facts.2.2.1
  have h9 := int_pow_facts.2.2.2
  by_cases hv : 0 ≤ v
  · rw [zigzag_encode_nonneg hv h1]
    omega
  · rw [zigzag_encode_neg (by omega) h0]
    omega

theorem zigzag_decode_even {u : Nat} (h : u < 2 ^ 64) (he : u % 2 = 0) :
    zigzag_decode u = ((u / 2 : Nat) : Int) := by
  rw [zigzag_decode, Nat.and_one_is_mod, he]
  have h1 : toU64 (-((0 : Nat) : Int)) = 0 := rfl
  rw [h1, Nat.xor_zero]
  have h2 : u >>> 1 = u / 2 := by
    rw [Nat.shiftRight_eq_div_pow]
  rw [h2, toI64, if_pos (by omega : u / 2 < 2 ^ 63)]

theorem zigzag_decode_odd {u : Nat} (h : u < 2 ^ 64) (ho : u % 2 = 1) :
    zigzag_decode u = -((u / 2 : Nat) : Int) - 1 := by
  rw [zigzag_decode, Nat.and_one_is_mod, ho]
  have h1 : toU64 (-((1 : Nat) : Int)) = 2 ^ 64 - 1 := by
    rw [toU64]
    norm_num
    rfl
  have h2 : u >>> 1 = u / 2 := by
    rw [Nat.shiftRight_eq_div_pow]
  rw [h1, h2, xor_two_pow_sub_one 64 (by omega : u / 2 < 2 ^ 64)]
  rw [toI64, if_neg (by omega : ¬ (2 ^ 64 - 1 - u / 2 < 2 ^ 63))]
  have h3 : ((2 ^ 64 - 1 - u / 2 : Nat) : Int) = 2 ^ 64 - 1 - (u / 2 : Nat) := by
    have h4 : u / 2 ≤ 2 ^ 64 - 1 := by omega
    omega
  omega

theorem zigzag_decode_encode {v : Int} (h0 : -(2 ^ 63) ≤ v) (h1 : v < 2 ^ 63) :
    zigzag_decode (zigzag_encode v) = v := by
  by_cases hv : 0 ≤ v
  · rw [zigzag_encode_nonneg hv h1]
    have h2 : (2 * v).toNat < 2 ^ 64 := by
      have h8 := int_pow_facts.2.2.1
      omega
    rw [zigzag_decode_even h2 (by omega)]
    omega
  · rw [zigzag_encode_neg (by omega) h0]
    have h2 : (-2 * v - 1).toNat < 2 ^ 64 := by
      have h8 := int_pow_facts.2.2.1
      omega
    rw [zigzag_decode_odd h2 (by omega)]
    omega

theorem zigzag_encode_decode {u : Nat} (h : u < 2 ^ 64) :
    zigzag_encode (zigzag_decode u) = u := by
  have h8 := int_pow_facts.2.2.1
  rcases Nat.mod_two_eq_zero_or_one u with he | ho
  · rw [zigzag_decode_even h he, zigzag_encode_nonneg (by omega) (by omega)]
    omega
  · rw [zigzag_decode_odd h ho,
      zigzag_encode_neg (by omega) (by omega)]
    omega

theorem i64_encode_var_vec_zz (v : Int) :
    i64_encode_var_vec v = u64_encode_var_vec (zigzag_encode v) := rfl

theorem i64_round_trip {v : Int} (h0 : -(2 ^ 63) ≤ v) (h1 : v < 2 ^ 63) :
    i64_decode_var (i64_encode_var_vec v) = some (v, i64_required_space v) := by
  have h2 := u64_round_trip (zigzag_encode_lt h0 h1)
  rw [i64_encode_var_vec_zz]
  simp only [i64_decode_var, h2, zigzag_decode_encode h0 h1,
    i64_required_space]

theorem ge_of_and_msb_ne_zero {b : Nat} (h : ¬ (b &&& MSB = 0)) : 128 ≤ b := by
  by_contra hc
  exact h (finByte_and_msb (by omega))

theorem u64_decode_loop_all_cont (src : List Nat) :
    ∀ result shift, (∀ b ∈ src, ¬ (b &&& MSB = 0)) →
      u64_decode_loop src result shift = none := by
  induction src with
  | nil => intro result shift _; rfl
  | cons b rest ih =>
    intro result shift h
    have hb : ¬ (b &&& MSB = 0) := h b (List.mem_cons_self b rest)
    have hb2 : 128 ≤ b := ge_of_and_msb_ne_zero hb
    simp only [u64_decode_loop]
    by_cases hc : 9 * 7 < shift + 7
    · rw [if_pos hc, if_neg (by omega : ¬ (b < 2))]
    · rw [if_neg hc, if_neg hb]
      exact ih _ _ (fun x hx => h x (List.mem_cons_of_mem b hx))

theorem u64_decode_loop_skip_cont (bs : List Nat) :
    ∀ k result rest, (∀ b ∈ bs, ¬ (b &&& MSB = 0)) → k + bs.length ≤ 9 →
      ∃ result2, u64_decode_loop (bs ++ rest) result (7 * k) =
        u64_decode_loop rest result2 (7 * (k + bs.length)) := by
  induction bs with
  | nil =>
    intro k result rest _ _
    exact ⟨result, by simp⟩
  | cons b bs ih =>
    intro k result rest h hk
    have hb : ¬ (b &&& MSB = 0) := h b (List.mem_cons_self b bs)
    have hk2 : k + bs.length + 1 ≤ 9 := by
      simp only [List.length_cons] at hk
      omega
    simp only [List.cons_append, u64_decode_loop]
    rw [if_neg (by omega : ¬ (9 * 7 < 7 * k + 7)), if_neg hb]
    have h7 : 7 * k + 7 = 7 * (k + 1) := by omega
    rw [h7]
    obtain ⟨r2, hr⟩ := ih (k + 1)
      (result ||| ((b &&& DROP_MSB) <<< (7 * k) % 2 ^ 64)) rest
      (fun x hx => h x (List.mem_cons_of_mem b hx)) (by omega)
    refine ⟨r2, ?_⟩
    rw [List.append_eq, hr]
    have h8 : k + 1 + bs.length = k + (b :: bs).length := by
      simp only [List.length_cons]
      omega
    rw [h8]

theorem u64_decode_loop_tenth (r2 b10 : Nat) (tail : List Nat) :
    u64_decode_loop (b10 :: tail) r2 (7 * 9) =
      if b10 < 2
        then some (r2 ||| ((b10 &&& DROP_MSB) <<< 63 % 2 ^ 64), 10)
        else none := by
  simp only [u64_decode_loop]
  rw [if_pos (by omega : 9 * 7 < 7 * 9 + 7)]

theorem u64_decode_loop_value_lt (src : List Nat) :
    ∀ result shift v m, result < 2 ^ 64 →
      u64_decode_loop src result shift = some (v, m) → v < 2 ^ 64 := by
  induction src with
  | nil =>
    intro result shift v m _ h
    simp [u64_decode_loop] at h
  | cons b rest ih =>
    intro result shift v m hres h
    have hres2 : result ||| ((b &&& DROP_MSB) <<< shift % 2 ^ 64) < 2 ^ 64 :=
      Nat.or_lt_two_pow hres (Nat.mod_lt _ (by norm_num))
    simp only [u64_decode_loop] at h
    by_cases hc : 9 * 7 < shift + 7
    · rw [if_pos hc] at h
      by_cases hb : b < 2
      · rw [if_pos hb] at h
        simp only [Option.some.injEq, Prod.mk.injEq] at h
        omega
      · rw [if_neg hb] at h
        exact absurd h (by simp)
    · rw [if_neg hc] at h
      by_cases hb : b &&& MSB = 0
      · rw [if_pos hb] at h
        simp only [Option.some.injEq, Prod.mk.injEq] at h
        omega
      · rw [if_neg hb] at h
        exact ih _ _ v m hres2 h

theorem u64_decode_loop_prefix (src : List Nat) :
    ∀ k result v m, k ≤ 9 →
      u64_decode_loop src result (7 * k) = some (v, m) →
      k < m ∧ m ≤ k + src.length ∧ m ≤ 10 ∧
        ∀ tail, u64_decode_loop (src.take (m - k) ++ tail) result (7 * k) =
          some (v, m) := by
  induction src with
  | nil =>
    intro k result v m _ h
    simp [u64_decode_loop] at h
  | cons b rest ih =>
    intro k result v m hk h
    simp only [u64_decode_loop] at h
    by_cases hc : 9 * 7 < 7 * k + 7
    · have hk9 : k = 9 := by omega
      subst hk9
      rw [if_pos hc] at h
      by_cases hb : b < 2
      · rw [if_pos hb] at h
        simp only [Option.some.injEq, Prod.mk.injEq] at h
        obtain ⟨hv, hm⟩ := h
        have hm10 : m = 10 := by omega
        subst hm10
        refine ⟨by omega, by simp only [List.length_cons]; omega, by omega, ?_⟩
        intro tail
        have ht : (b :: rest).take (10 - 9) = [b] := by simp
        rw [ht]
        simp only [List.cons_append, List.nil_append, u64_decode_loop]
        rw [if_pos hc, if_pos hb, hv]
      · rw [if_neg hb] at h
        exact absurd h (by simp)
    · rw [if_neg hc] at h
      by_cases hb : b &&& MSB = 0
      · rw [if_pos hb] at h
        simp only [Option.some.injEq, Prod.mk.injEq] at h
        obtain ⟨hv, hm⟩ := h
        have hm1 : m = k + 1 := by omega
        subst hm1
        refine ⟨by omega, by simp only [List.length_cons]; omega, by omega, ?_⟩
        intro tail
        have ht : (b :: rest).take (k + 1 - k) = [b] := by
          have h1 : k + 1 - k = 1 := by omega
          rw [h1]
          simp
        rw [ht]
        simp only [List.cons_append, List.nil_append, u64_decode_loop]
        rw [if_neg hc, if_pos hb, hv, hm]
      · rw [if_neg hb] at h
        have h7 : 7 * k + 7 = 7 * (k + 1) := by omega
        rw [h7] at h
        have hk8 : k + 1 ≤ 9 := by omega
        obtain ⟨ih1, ih2, ih3, ih4⟩ := ih (k + 1) _ v m hk8 h
        refine ⟨by omega, by simp only [List.length_cons]; omega, ih3, ?_⟩
        intro tail
        have ht : (b :: rest).take (m - k) =
            b :: rest.take (m - (k + 1)) := by
          have h1 : m - k = (m - (k + 1)) + 1 := by omega
          rw [h1]
          simp
        rw [ht]
        simp only [List.cons_append, u64_decode_loop]
        rw [if_neg hc, if_neg hb, h7]
        exact ih4 tail

theorem varintBytesAux_last (fuel : Nat) :
    ∀ n, n < 2 ^ (7 * (fuel + 1)) →
      ∃ b, b < 128 ∧ (varintBytesAux fuel n).getLast? = some b := by
  induction fuel with
  | zero =>
    intro n h
    have h128 : n < 128 := by norm_num at h; omega
    have hmod : n % 256 = n := Nat.mod_eq_of_lt (by omega)
    simp only [varintBytesAux, hmod, List.getLast?_singleton]
    exact ⟨n, h128, rfl⟩
  | succ fuel ih =>
    intro n h
    by_cases h0 : 0x80 ≤ n
    · have hdiv : n >>> 7 < 2 ^ (7 * (fuel + 1)) := by
        rw [Nat.shiftRight_eq_div_pow,
          Nat.div_lt_iff_lt_mul (by norm_num : (0 : Nat) < 2 ^ 7)]
        have h2 : (2 : Nat) ^ (7 * (fuel + 1)) * 2 ^ 7 =
            2 ^ (7 * (fuel + 1 + 1)) := by
          rw [← pow_add]
          have h9 : 7 * (fuel + 1) + 7 = 7 * (fuel + 1 + 1) := by omega
          rw [h9]
        omega
      obtain ⟨b, hb, hlast⟩ := ih (n >>> 7) hdiv
      refine ⟨b, hb, ?_⟩
      simp only [varintBytesAux, h0, if_true, List.getLast?_cons, hlast,
        Option.getD_some]
    · have h128 : n < 128 := by omega
      have hmod : n % 256 = n := Nat.mod_eq_of_lt (by omega)
      simp only [varintBytesAux, h0, if_false, hmod, List.getLast?_singleton]
      exact ⟨n, h128, rfl⟩

theorem unsigned_round_trip {maxVal v : Nat} (hmax : maxVal < 2 ^ 64)
    (hv : v ≤ maxVal) :
    unsigned_decode_var maxVal (unsigned_encode_var_vec v) =
      some (v, unsigned_required_space v) := by
  have h := u64_round_trip (show v < 2 ^ 64 by omega)
  simp only [unsigned_decode_var, unsigned_encode_var_vec,
    unsigned_required_space, h]
  rw [if_neg (by omega : ¬ (maxVal < v)), Nat.mod_eq_of_lt (by omega)]

theorem signed_round_trip {minV maxV v : Int} (h0 : -(2 ^ 63) ≤ v)
    (h1 : v < 2 ^ 63) (h2 : minV ≤ v) (h3 : v ≤ maxV) :
    signed_decode_var minV maxV (signed_encode_var_vec v) =
      some (v, signed_required_space v) := by
  have h := i64_round_trip h0 h1
  simp only [signed_decode_var, signed_encode_var_vec,
    signed_required_space, h]
  rw [if_neg (by omega : ¬ (maxV < v ∨ v < minV))]

/-- C1: for every supported integer type (u8, u16, u32, u64, usize, i8, i16,
i32, i64, isize) and every value `v` of that type, decoding the bytes produced
by encoding `v` succeeds and returns exactly `(v, n)` where `n` is the byte
count the encoder wrote, which equals `v.required_space()`. -/
theorem C1_round_trip_all_widths :
    (∀ v : Nat, v ≤ 2 ^ 8 - 1 →
      u8_decode_var (unsigned_encode_var_vec v) =
        some (v, unsigned_required_space v)) ∧
    (∀ v : Nat, v ≤ 2 ^ 16 - 1 →
      u16_decode_var (unsigned_encode_var_vec v) =
        some (v, unsigned_required_space v)) ∧
    (∀ v : Nat, v ≤ 2 ^ 32 - 1 →
      u32_decode_var (unsigned_encode_var_vec v) =
        some (v, unsigned_required_space v)) ∧
    (∀ v : Nat, v ≤ 2 ^ 64 - 1 →
      u64_decode_var (u64_encode_var_vec v) =
        some (v, u64_required_space v)) ∧
    (∀ v : Nat, v ≤ 2 ^ 64 - 1 →
      usize_decode_var (unsigned_encode_var_vec v) =
        some (v, unsigned_required_space v)) ∧
    (∀ v : Int, -(2 ^ 7) ≤ v → v ≤ 2 ^ 7 - 1 →
      i8_decode_var (signed_encode_var_vec v) =
        some (v, signed_required_space v)) ∧
    (∀ v : Int, -(2 ^ 15) ≤ v → v ≤ 2 ^ 15 - 1 →
      i16_decode_var (signed_encode_var_vec v) =
        some (v, signed_required_space v)) ∧
    (∀ v : Int, -(2 ^ 31) ≤ v → v ≤ 2 ^ 31 - 1 →
      i32_decode_var (signed_encode_var_vec v) =
        some (v, signed_required_space v)) ∧
    (∀ v : Int, -(2 ^ 63) ≤ v → v < 2 ^ 63 →
      i64_decode_var (i64_encode_var_vec v) =
        some (v, i64_required_space v)) ∧
    (∀ v : Int, -(2 ^ 63) ≤ v → v ≤ 2 ^ 63 - 1 →
      isize_decode_var (signed_encode_var_vec v) =
        some (v, signed_required_space v)) := by
  refine ⟨?_, ?_, ?_, ?_, ?_, ?_, ?_, ?_, ?_, ?_⟩
  · intro v hv
    exact unsigned_round_trip (by norm_num) hv
  · intro v hv
    exact unsigned_round_trip (by norm_num) hv
  · intro v hv
    exact unsigned_round_trip (by norm_num) hv
  · intro v hv
    exact u64_round_trip (by omega)
  · intro v hv
    exact unsigned_round_trip (by norm_num) hv
  · intro v h0 h1
    exact signed_round_trip (by norm_num; omega) (by norm_num; omega) h0 h1
  · intro v h0 h1
    exact signed_round_trip (by norm_num; omega) (by norm_num; omega) h0 h1
  · intro v h0 h1
    exact signed_round_trip (by norm_num; omega) (by norm_num; omega) h0 h1
  · intro v h0 h1
    exact i64_round_trip h0 h1
  · intro v h0 h1
    exact signed_round_trip h0 (by omega) h0 h1

/-- C1 witness: the u8 round trip at the concrete value 7. -/
theorem C1_witness :
    7 ≤ 2 ^ 8 - 1 ∧
      u8_decode_var (unsigned_encode_var_vec 7) =
        some (7, unsigned_required_space 7) :=
  ⟨by norm_num, C1_round_trip_all_widths.1 7 (by norm_num)⟩

/-- C2: `u64::decode_var` reads a 10th byte exactly when the first nine bytes
all carry the continuation bit; it then succeeds precisely when that 10th byte
is 0 or 1. Nine `0xFF` bytes followed by `0x02` fail to decode; nine `0xFF`
bytes followed by `0x01` decode to `u64::MAX` consuming 10 bytes. -/
theorem C2_tenth_byte_guard :
    (∀ bs : List Nat, bs.length = 9 → (∀ b ∈ bs, ¬ (b &&& MSB = 0)) →
      ∀ b10 tail,
        ((u64_decode_var (bs ++ b10 :: tail)).isSome = true ↔ b10 < 2)) ∧
    u64_decode_var (List.replicate 9 0xFF ++ [0x02]) = none ∧
    u64_decode_var (List.replicate 9 0xFF ++ [0x01]) = some (2 ^ 64 - 1, 10) := by
  refine ⟨?_, by decide, by decide⟩
  intro bs hlen hcont b10 tail
  obtain ⟨r2, hr⟩ :=
    u64_decode_loop_skip_cont bs 0 0 (b10 :: tail) hcont (by omega)
  simp only [Nat.mul_zero, Nat.zero_add, hlen] at hr
  rw [u64_decode_var, hr, u64_decode_loop_tenth]
  by_cases hb : b10 < 2
  · simp [hb]
  · simp [hb]

/-- C2 witness: nine continuation bytes `0x80` followed by the 10th byte 1
decode successfully. -/
theorem C2_witness :
    (List.replicate 9 0x80).length = 9 ∧
      ((u64_decode_var (List.replicate 9 0x80 ++ 1 :: [])).isSome = true ↔
        1 < 2) :=
  ⟨by decide,
    C2_tenth_byte_guard.1 (List.replicate 9 0x80) (by decide) (by decide) 1 []⟩

/-- C4: the signed base codec is the zigzag bijection: on the i64 range encode
followed by decode is the identity, and on the u64 range decode followed by
encode is the identity; `encode_var(-1)` gives `[0x01]` (the bytes of `1u64`),
`encode_var(0)` gives `[0x00]`, and `i64::MIN` round-trips exactly. -/
theorem C4_zigzag_bijection :
    (∀ v : Int, -(2 ^ 63) ≤ v → v < 2 ^ 63 →
      zigzag_encode v < 2 ^ 64 ∧ zigzag_decode (zigzag_encode v) = v) ∧
    (∀ u : Nat, u < 2 ^ 64 → zigzag_encode (zigzag_decode u) = u) ∧
    i64_encode_var_vec (-1) = [0x01] ∧
    u64_encode_var_vec 1 = [0x01] ∧
    i64_encode_var_vec 0 = [0x00] ∧
    i64_decode_var (i64_encode_var_vec (-(2 ^ 63))) = some (-(2 ^ 63), 10) := by
  refine ⟨?_, ?_, by decide, by decide, by decide, by decide⟩
  · intro v h0 h1
    exact ⟨zigzag_encode_lt h0 h1, zigzag_decode_encode h0 h1⟩
  · intro u h
    exact zigzag_encode_decode h

/-- C4 witness: the zigzag round trip at the concrete value -5. -/
theorem C4_witness :
    -(2 ^ 63) ≤ (-5 : Int) ∧ (-5 : Int) < 2 ^ 63 ∧
      (zigzag_encode (-5) < 2 ^ 64 ∧ zigzag_decode (zigzag_encode (-5)) = -5) :=
  ⟨by norm_num, by norm_num,
    C4_zigzag_bijection.1 (-5) (by norm_num) (by norm_num)⟩

/-- C5: `u64::encode_var` returns exactly `required_space(v)` as its byte
count whenever the destination is large enough, `required_space` is
`max(1, ceil(bit_length(v) / 7))` (`(Nat.size v + 6) / 7` rounds up), and the
concrete vectors for 0, 127, 128 and 300 are as specified. -/
theorem C5_encode_length :
    (∀ v : Nat, v < 2 ^ 64 →
      u64_required_space v = max 1 ((Nat.size v + 6) / 7) ∧
      ∀ dst : List Nat, u64_required_space v ≤ dst.length →
        ∃ out, u64_encode_var v dst = some (u64_required_space v, out)) ∧
    u64_encode_var_vec 0 = [0x00] ∧
    u64_encode_var_vec 127 = [0x7F] ∧
    u64_encode_var_vec 128 = [0x80, 0x01] ∧
    u64_encode_var_vec 300 = [0xAC, 0x02] := by
  refine ⟨?_, by decide, by decide, by decide, by decide⟩
  intro v hv
  refine ⟨u64_required_space_eq hv, ?_⟩
  intro dst hlen
  exact ⟨varintBytes v ++ dst.drop (u64_required_space v),
    u64_encode_var_eq dst hv hlen⟩

/-- C5 witness: encoding 300 into a 3-byte buffer returns count
`required_space 300`. -/
theorem C5_witness :
    300 < 2 ^ 64 ∧ u64_required_space 300 ≤ ([0, 0, 0] : List Nat).length ∧
      ∃ out, u64_encode_var 300 [0, 0, 0] =
        some (u64_required_space 300, out) :=
  ⟨by norm_num, by decide,
    (C5_encode_length.1 300 (by norm_num)).2 [0, 0, 0] (by decide)⟩

/-- C6: `u64::decode_var` fails on the empty slice and on every slice all of
whose bytes carry the continuation bit (no terminating byte, and every
candidate 10th byte is at least `0x80`, hence not a valid guard byte). -/
theorem C6_truncated_input_fails :
    u64_decode_var [] = none ∧
    ∀ src : List Nat, (∀ b ∈ src, ¬ (b &&& MSB = 0)) →
      u64_decode_var src = none :=
  ⟨rfl, fun src h => u64_decode_loop_all_cont src 0 0 h⟩

/-- C6 witness: two continuation bytes with no terminator fail to decode. -/
theorem C6_witness :
    (∀ b ∈ ([0x80, 0xFF] : List Nat), ¬ (b &&& MSB = 0)) ∧
      u64_decode_var [0x80, 0xFF] = none :=
  ⟨by decide, C6_truncated_input_fails.2 [0x80, 0xFF] (by decide)⟩

/-- C7: a successful decode `some (v, n)` consumes between 1 and
`min (src.length) 10` bytes, and the result only depends on the consumed
prefix: whatever follows those `n` bytes leaves the outcome unchanged. -/
theorem C7_decode_prefix_stable :
    ∀ src v n, u64_decode_var src = some (v, n) →
      1 ≤ n ∧ n ≤ src.length ∧ n ≤ 10 ∧
        ∀ tail, u64_decode_var (src.take n ++ tail) = some (v, n) := by
  intro src v n h
  have h2 : u64_decode_loop src 0 (7 * 0) = some (v, n) := by
    simpa using h
  obtain ⟨h3, h4, h5, h6⟩ := u64_decode_loop_prefix src 0 0 v n (by omega) h2
  refine ⟨by omega, by omega, h5, ?_⟩
  intro tail
  have h7 := h6 tail
  simpa using h7

/-- C7 witness: decoding `[0x01, 0x99]` consumes one byte and is unchanged
when the trailing byte is replaced. -/
theorem C7_witness :
    u64_decode_var [0x01, 0x99] = some (1, 1) ∧
      u64_decode_var (List.take 1 [0x01, 0x99] ++ [0x55]) = some (1, 1) :=
  ⟨by decide, (C7_decode_prefix_stable [0x01, 0x99] 1 1 (by decide)).2.2.2 [0x55]⟩

theorem unsigned_decode_var_none {maxVal : Nat} {src : List Nat}
    (h : u64_decode_var src = none) : unsigned_decode_var maxVal src = none := by
  simp only [unsigned_decode_var, h]

theorem unsigned_decode_var_narrow {maxVal v n : Nat} {src : List Nat}
    (h : u64_decode_var src = some (v, n)) :
    unsigned_decode_var maxVal src =
      if maxVal < v then none else some (v, n) := by
  simp only [unsigned_decode_var, h]
  by_cases hc : maxVal < v
  · rw [if_pos hc, if_pos hc]
  · rw [if_neg hc, if_neg hc, Nat.mod_eq_of_lt (by omega)]

theorem signed_decode_var_none {minV maxV : Int} {src : List Nat}
    (h : i64_decode_var src = none) :
    signed_decode_var minV maxV src = none := by
  simp only [signed_decode_var, h]

theorem signed_decode_var_narrow {minV maxV v : Int} {n : Nat}
    {src : List Nat} (h : i64_decode_var src = some (v, n)) :
    signed_decode_var minV maxV src =
      if maxV < v ∨ v < minV then none else some (v, n) := by
  simp only [signed_decode_var, h]

/-- C3: each narrow unsigned decode delegates to `u64::decode_var`,
propagating failure and rejecting any decoded value above `Self::MAX`
(otherwise returning the same value and byte count); each narrow signed decode
likewise delegates to `i64::decode_var` with a `[Self::MIN, Self::MAX]` range
check. In particular the encoding of `300u32` fails to decode as `u8`. -/
theorem C3_narrow_overflow_rejection :
    (∀ src : List Nat, u64_decode_var src = none →
      u8_decode_var src = none ∧ u16_decode_var src = none ∧
      u32_decode_var src = none ∧ usize_decode_var src = none) ∧
    (∀ src : List Nat, ∀ v n : Nat, u64_decode_var src = some (v, n) →
      (u8_decode_var src = if 2 ^ 8 - 1 < v then none else some (v, n)) ∧
      (u16_decode_var src = if 2 ^ 16 - 1 < v then none else some (v, n)) ∧
      (u32_decode_var src = if 2 ^ 32 - 1 < v then none else some (v, n)) ∧
      (usize_decode_var src =
        if 2 ^ 64 - 1 < v then none else some (v, n))) ∧
    (∀ src : List Nat, i64_decode_var src = none →
      i8_decode_var src = none ∧ i16_decode_var src = none ∧
      i32_decode_var src = none ∧ isize_decode_var src = none) ∧
    (∀ src : List Nat, ∀ v : Int, ∀ n : Nat,
      i64_decode_var src = some (v, n) →
      (i8_decode_var src =
        if 2 ^ 7 - 1 < v ∨ v < -(2 ^ 7) then none else some (v, n)) ∧
      (i16_decode_var src =
        if 2 ^ 15 - 1 < v ∨ v < -(2 ^ 15) then none else some (v, n)) ∧
      (i32_decode_var src =
        if 2 ^ 31 - 1 < v ∨ v < -(2 ^ 31) then none else some (v, n)) ∧
      (isize_decode_var src =
        if 2 ^ 63 - 1 < v ∨ v < -(2 ^ 63) then none else some (v, n))) ∧
    u8_decode_var (unsigned_encode_var_vec 300) = none := by
  refine ⟨?_, ?_, ?_, ?_, by decide⟩
  · intro src h
    exact ⟨unsigned_decode_var_none h, unsigned_decode_var_none h,
      unsigned_decode_var_none h, unsigned_decode_var_none h⟩
  · intro src v n h
    exact ⟨unsigned_decode_var_narrow h, unsigned_decode_var_narrow h,
      unsigned_decode_var_narrow h, unsigned_decode_var_narrow h⟩
  · intro src h
    exact ⟨signed_decode_var_none h, signed_decode_var_none h,
      signed_decode_var_none h, signed_decode_var_none h⟩
  · intro src v n h
    exact ⟨signed_decode_var_narrow h, signed_decode_var_narrow h,
      signed_decode_var_narrow h, signed_decode_var_narrow h⟩

/-- C3 witness: the bytes of `300` decode as `u64` but the u8 adapter fails
the width check. -/
theorem C3_witness :
    u64_decode_var [0xAC, 0x02] = some (300, 2) ∧
      u8_decode_var [0xAC, 0x02] =
        (if 2 ^ 8 - 1 < 300 then none else some (300, 2)) :=
  ⟨by decide,
    (C3_narrow_overflow_rejection.2.1 [0xAC, 0x02] 300 2 (by decide)).1⟩

theorem u64_encode_var_none {v : Nat} {dst : List Nat}
    (h : dst.length < u64_required_space v) : u64_encode_var v dst = none := by
  rw [u64_encode_var, if_neg (by omega)]

theorem u64_encode_var_success {v : Nat} (hv : v < 2 ^ 64) (dst : List Nat)
    (hlen : u64_required_space v ≤ dst.length) :
    ∃ out, u64_encode_var v dst = some (u64_required_space v, out) ∧
      out.length = dst.length ∧
      out.drop (u64_required_space v) = dst.drop (u64_required_space v) := by
  have hl : (varintBytes v).length = u64_required_space v := varintBytes_length hv
  refine ⟨varintBytes v ++ dst.drop (u64_required_space v),
    u64_encode_var_eq dst hv hlen, ?_, ?_⟩
  · rw [List.length_append, List.length_drop, hl]
    omega
  · rw [← hl]
    exact List.drop_left _ _

/-- C8: calling `encode_var` with a destination shorter than `required_space`
hits the assertion before any byte is stored (for every supported type, all of
which delegate to the two base encoders); with a large enough destination the
encode succeeds — every checked store is in bounds — and only indices below
`required_space` are written. -/
theorem C8_encode_capacity_contract :
    (∀ v : Nat, ∀ dst : List Nat, dst.length < u64_required_space v →
      u64_encode_var v dst = none) ∧
    (∀ v : Nat, v < 2 ^ 64 → ∀ dst : List Nat,
      u64_required_space v ≤ dst.length →
      ∃ out, u64_encode_var v dst = some (u64_required_space v, out) ∧
        out.length = dst.length ∧
        out.drop (u64_required_space v) = dst.drop (u64_required_space v)) ∧
    (∀ v : Int, ∀ dst : List Nat, dst.length < i64_required_space v →
      i64_encode_var v dst = none) ∧
    (∀ v : Int, -(2 ^ 63) ≤ v → v < 2 ^ 63 → ∀ dst : List Nat,
      i64_required_space v ≤ dst.length →
      ∃ out, i64_encode_var v dst = some (i64_required_space v, out) ∧
        out.length = dst.length ∧
        out.drop (i64_required_space v) = dst.drop (i64_required_space v)) ∧
    (∀ v : Nat, ∀ dst : List Nat, dst.length < unsigned_required_space v →
      unsigned_encode_var v dst = none) ∧
    (∀ v : Int, ∀ dst : List Nat, dst.length < signed_required_space v →
      signed_encode_var v dst = none) := by
  refine ⟨?_, ?_, ?_, ?_, ?_, ?_⟩
  · intro v dst h
    exact u64_encode_var_none h
  · intro v hv dst hlen
    exact u64_encode_var_success hv dst hlen
  · intro v dst h
    exact u64_encode_var_none h
  · intro v h0 h1 dst hlen
    exact u64_encode_var_success (zigzag_encode_lt h0 h1) dst hlen
  · intro v dst h
    exact u64_encode_var_none h
  · intro v dst h
    exact u64_encode_var_none h

/-- C8 witness: encoding 300 into a single-byte buffer hits the assertion. -/
theorem C8_witness :
    ([0] : List Nat).length < u64_required_space 300 ∧
      u64_encode_var 300 [0] = none :=
  ⟨by decide, C8_encode_capacity_contract.1 300 [0] (by decide)⟩

/-- C9: whenever `u64::decode_var` succeeds with value `v` — including on
non-minimal inputs such as `[0x80, 0x00]` — re-encoding `v` yields the
canonical encoding: exactly `required_space v` bytes, it decodes back to
`(v, required_space v)`, and its last byte has the continuation bit clear
(no redundant trailing zero-continuation bytes). -/
theorem C9_reencode_minimal :
    (∀ src : List Nat, ∀ v n : Nat, u64_decode_var src = some (v, n) →
      (u64_encode_var_vec v).length = u64_required_space v ∧
      u64_decode_var (u64_encode_var_vec v) =
        some (v, u64_required_space v) ∧
      ∃ b, b < MSB ∧ (u64_encode_var_vec v).getLast? = some b) ∧
    u64_decode_var [0x80, 0x00] = some (0, 2) ∧
    u64_encode_var_vec 0 = [0x00] := by
  refine ⟨?_, by decide, by decide⟩
  intro src v n h
  have hv : v < 2 ^ 64 :=
    u64_decode_loop_value_lt src 0 0 v n (by norm_num) h
  refine ⟨?_, u64_round_trip hv, ?_⟩
  · rw [u64_encode_var_vec_eq hv, varintBytes_length hv]
  · obtain ⟨b, hb, hlast⟩ := varintBytesAux_last 9 v (by norm_num; omega)
    refine ⟨b, hb, ?_⟩
    rw [u64_encode_var_vec_eq hv]
    exact hlast

/-- C9 witness: the non-minimal input `[0x80, 0x00]` decodes to 0, which
re-encodes to the single byte `[0x00]` of length `required_space 0`. -/
theorem C9_witness :
    u64_decode_var [0x80, 0x00] = some (0, 2) ∧
      (u64_encode_var_vec 0).length = u64_required_space 0 :=
  ⟨by decide, (C9_reencode_minimal.1 [0x80, 0x00] 0 2 (by decide)).1⟩

/-- C10: with a destination of sufficient length, `u64::encode_var` returns
the byte count `r = required_space v` and modifies only indices below `r`:
every byte of the destination from index `r` on keeps its previous value. -/
theorem C10_encode_frame :
    ∀ v : Nat, v < 2 ^ 64 → ∀ dst : List Nat,
      u64_required_space v ≤ dst.length →
      ∀ r out, u64_encode_var v dst = some (r, out) →
        r = u64_required_space v ∧ out.length = dst.length ∧
        out.drop r = dst.drop r := by
  intro v hv dst hlen r out h
  rw [u64_encode_var_eq dst hv hlen] at h
  simp only [Option.some.injEq, Prod.mk.injEq] at h
  obtain ⟨hr, hout⟩ := h
  have hl : (varintBytes v).length = u64_required_space v := varintBytes_length hv
  subst hr
  refine ⟨rfl, ?_, ?_⟩
  · rw [← hout, List.length_append, List.length_drop, hl]
    omega
  · rw [← hout, ← hl]
    exact List.drop_left _ _

/-- C10 witness: encoding 300 into `[0, 0, 0]` writes two bytes and leaves
the third byte untouched. -/
theorem C10_witness :
    u64_encode_var 300 [0, 0, 0] = some (2, [0xAC, 0x02, 0]) ∧
      (2 = u64_required_space 300 ∧
        ([0xAC, 0x02, 0] : List Nat).length = ([0, 0, 0] : List Nat).length ∧
        ([0xAC, 0x02, 0] : List Nat).drop 2 = ([0, 0, 0] : List Nat).drop 2) :=
  ⟨by decide,
    C10_encode_frame 300 (by norm_num) [0, 0, 0] (by decide) 2
      [0xAC, 0x02, 0] (by decide)⟩

